import Mathlib

/-!
Verification of the head-change coalescer (`chain/store/coalescer.go`).

The coalescer sits between a producer of head-change events (each a pair of
tipset sequences to revert and to apply) and a single consumer callback.  It
merges bursts of events into one pending pair, waits for a quiescence delay,
and dispatches the merged pair once.

Embedding notes:
* a tipset is an opaque value of type `τ` carrying a key `key ts : κ`;
* Go's nil/non-nil slice distinction for the pending fields is modelled with
  `Option (List τ)` (`none` = nil slice, `some l` = non-nil slice holding `l`);
* Go's `map[TipSetKey]struct{}` membership sets are built exactly as the code
  builds them, by folding insertion over the source slice (`keySet`);
* the `background` goroutine is modelled as a function from a timed input
  trace (submissions and the close signal, with `Nat` timestamps) to the trace
  of dispatches; `time.After delay` becomes an `Option Nat` deadline, and a
  pending timer whose deadline has been reached fires before the next input
  is handled (Go's `select` makes no ordering promise on a tie; this is one
  admissible serialisation);
* the consumer callback is a parameter `notify`; its error is recorded in the
  dispatch trace (the Go code logs it) and otherwise ignored.
-/

set_option linter.unusedSectionVars false

namespace Store

variable {τ : Type} {κ : Type} {ε ε₁ ε₂ : Type} [DecidableEq κ]

/-- The coalescer's persistent mutable state: the pending revert and apply
slices.  `none` models a nil Go slice, `some l` a non-nil slice. -/
structure HeadChangeCoalescer (τ : Type) where
  revert : Option (List τ)
  apply : Option (List τ)
deriving DecidableEq

/-- Build the membership key set of a slice, as the Go code does: start from
an empty map and insert the key of every element in order. -/
def keySet (key : τ → κ) (l : List τ) : List κ :=
  l.foldl (fun m ts => m ++ [key ts]) []

/-- The body of Go's `coalesce` method on the two pending slices (read as
plain lists) and the incoming pair: build the four membership sets, then build
the new revert slice by appending the surviving pending reverts followed by
the surviving incoming reverts, and symmetrically for apply. -/
def coalescePair (key : τ → κ) (pendRevertL pendApplyL revert apply : List τ) :
    List τ × List τ :=
  let pendRevert := keySet key pendRevertL
  let pendApply := keySet key pendApplyL
  let reverting := keySet key revert
  let applying := keySet key apply
  let newRevert :=
    let acc := pendRevertL.foldl
      (fun acc ts => if key ts ∈ applying then acc else acc ++ [ts]) []
    revert.foldl
      (fun acc ts => if key ts ∈ pendApply then acc else acc ++ [ts]) acc
  let newApply :=
    let acc := pendApplyL.foldl
      (fun acc ts => if key ts ∈ reverting then acc else acc ++ [ts]) []
    apply.foldl
      (fun acc ts => if key ts ∈ pendRevert then acc else acc ++ [ts]) acc
  (newRevert, newApply)

/-- Go's `coalesce` method: iterate over the pending fields (a nil slice
iterates as empty) and commit the two freshly made (hence non-nil) slices. -/
def coalesce (key : τ → κ) (c : HeadChangeCoalescer τ) (revert apply : List τ) :
    HeadChangeCoalescer τ :=
  let p := coalescePair key (c.revert.getD []) (c.apply.getD []) revert apply
  ⟨some p.1, some p.2⟩

/-- One record of the dispatch trace: when the consumer callback ran, the two
slices it received, and the error it returned (which the code only logs). -/
structure DispatchRec (τ ε : Type) where
  time : Nat
  revert : List τ
  apply : List τ
  err : Option ε
deriving DecidableEq

/-- Go's `dispatch` method at a given instant: invoke the consumer callback
with the pending slices (a nil slice is passed as empty), record its error,
and reset both pending fields to nil. -/
def dispatch (notify : List τ → List τ → Option ε) (time : Nat)
    (c : HeadChangeCoalescer τ) : HeadChangeCoalescer τ × DispatchRec τ ε :=
  (⟨none, none⟩,
   ⟨time, c.revert.getD [], c.apply.getD [],
    notify (c.revert.getD []) (c.apply.getD [])⟩)

/-- A producer-side input to the background loop. -/
inductive CAction (τ : Type) where
  | submit (revert apply : List τ)
  | close
deriving DecidableEq

/-- Whether an input is a submission (as opposed to the close signal). -/
def CAction.isSubmit : CAction τ → Bool
  | .submit _ _ => true
  | .close => false

/-- The revert/apply payload of an input (empty for the close signal). -/
def CAction.pair : CAction τ → List τ × List τ
  | .submit r a => (r, a)
  | .close => ([], [])

/-- If the quiescence timer is armed and its deadline has been reached by
instant `t`, fire it: dispatch and disarm.  Returns the dispatches emitted,
the timer state and the coalescer state afterwards. -/
def fireIfDue (notify : List τ → List τ → Option ε) (timerC : Option Nat)
    (c : HeadChangeCoalescer τ) (t : Nat) :
    List (DispatchRec τ ε) × Option Nat × HeadChangeCoalescer τ :=
  match timerC with
  | some d =>
      if d ≤ t then
        ([(dispatch notify d c).2], none, (dispatch notify d c).1)
      else
        ([], some d, c)
  | none => ([], none, c)

/-- Go's `background` goroutine, run over a timed input trace.  `timerC` is
the armed quiescence deadline, if any.  On a submission: coalesce, and arm the
timer for `t + delay` only if no timer is armed.  On close: flush once if
either pending field is non-nil, then terminate (later inputs never reach the
loop).  When the input trace ends, a still-armed timer eventually fires. -/
def background (key : τ → κ) (notify : List τ → List τ → Option ε) (delay : Nat) :
    Option Nat → HeadChangeCoalescer τ → List (Nat × CAction τ) →
    List (DispatchRec τ ε)
  | none, _, [] => []
  | some d, c, [] => [(dispatch notify d c).2]
  | timerC, c, (t, act) :: rest =>
    let f := fireIfDue notify timerC c t
    match act with
    | CAction.submit r a =>
        let c' := coalesce key f.2.2 r a
        let timerC' := match f.2.1 with
          | none => some (t + delay)
          | some d => some d
        f.1 ++ background key notify delay timerC' c' rest
    | CAction.close =>
        if f.2.2.revert.isSome || f.2.2.apply.isSome then
          f.1 ++ [(dispatch notify t f.2.2).2]
        else f.1

/-- Errors the public facade can return. -/
inductive CoalescerError where
  | closed
deriving DecidableEq

/-- Go's `HeadChange` facade once the lifecycle context is settled: while the
coalescer is live the event is handed to the loop and `ok` is returned; once
it is closed the context's error is returned and nothing else happens. -/
def HeadChange (closed : Bool) (_revert _apply : List τ) :
    Except CoalescerError Unit :=
  if closed then Except.error CoalescerError.closed else Except.ok ()

/-- Net pending pair after merging a sequence of events into an initially
empty pending state (what the loop holds after a burst). -/
def mergeAll (key : τ → κ) (evts : List (List τ × List τ)) : List τ × List τ :=
  evts.foldl (fun p e => coalescePair key p.1 p.2 e.1 e.2) ([], [])

/-- A concrete consumer callback for concrete runs: always succeeds. -/
def notifyOk : List Nat → List Nat → Option Unit := fun _ _ => none

/-! ### Basic lemmas about the merge -/

theorem foldl_append_singleton (key : τ → κ) (l : List τ) (acc : List κ) :
    l.foldl (fun m ts => m ++ [key ts]) acc = acc ++ l.map key := by
  induction l generalizing acc with
  | nil => simp
  | cons x xs ih => simp [List.foldl_cons, ih]

theorem keySet_eq_map (key : τ → κ) (l : List τ) :
    keySet key l = l.map key := by
  simpa using foldl_append_singleton key l []

theorem foldl_skip_eq_filter (key : τ → κ) (S : List κ) (l : List τ)
    (acc : List τ) :
    l.foldl (fun acc ts => if key ts ∈ S then acc else acc ++ [ts]) acc =
      acc ++ l.filter (fun ts => decide (key ts ∉ S)) := by
  induction l generalizing acc with
  | nil => simp
  | cons x xs ih =>
    by_cases h : key x ∈ S <;>
      simp [List.foldl_cons, List.filter_cons, h, ih]

theorem coalescePair_eq (key : τ → κ) (R A r a : List τ) :
    coalescePair key R A r a =
      (R.filter (fun ts => decide (key ts ∉ a.map key)) ++
         r.filter (fun ts => decide (key ts ∉ A.map key)),
       A.filter (fun ts => decide (key ts ∉ r.map key)) ++
         a.filter (fun ts => decide (key ts ∉ R.map key))) := by
  simp only [coalescePair, keySet_eq_map, foldl_skip_eq_filter,
    List.nil_append]

theorem mem_map_filter_iff (key : τ → κ) (S : List κ) (l : List τ) (k : κ) :
    k ∈ (l.filter (fun ts => decide (key ts ∉ S))).map key ↔
      k ∈ l.map key ∧ k ∉ S := by
  simp only [List.mem_map, List.mem_filter, decide_eq_true_eq]
  constructor
  · rintro ⟨ts, ⟨hl, hs⟩, rfl⟩
    exact ⟨⟨ts, hl, rfl⟩, hs⟩
  · rintro ⟨⟨ts, hl, rfl⟩, hk⟩
    exact ⟨ts, ⟨hl, hk⟩, rfl⟩

/-- A key of the merged revert slice is either a pending-revert key not
applied by the incoming event, or an incoming-revert key not pending-applied
(and symmetrically for the merged apply slice, by the same lemma with the
arguments swapped through `coalescePair_eq`). -/
theorem mem_coalescePair_fst (key : τ → κ) (R A r a : List τ) (k : κ) :
    k ∈ (coalescePair key R A r a).1.map key ↔
      (k ∈ R.map key ∧ k ∉ a.map key) ∨ (k ∈ r.map key ∧ k ∉ A.map key) := by
  rw [coalescePair_eq]
  simp only [List.map_append, List.mem_append, mem_map_filter_iff]

theorem mem_coalescePair_snd (key : τ → κ) (R A r a : List τ) (k : κ) :
    k ∈ (coalescePair key R A r a).2.map key ↔
      (k ∈ A.map key ∧ k ∉ r.map key) ∨ (k ∈ a.map key ∧ k ∉ R.map key) := by
  rw [coalescePair_eq]
  simp only [List.map_append, List.mem_append, mem_map_filter_iff]

/-- One merge step preserves key-disjointness of the pending pair, provided
the incoming pair is itself key-disjoint. -/
theorem coalescePair_disjoint (key : τ → κ) (R A r a : List τ)
    (hRA : ∀ k ∈ R.map key, k ∉ A.map key)
    (hra : ∀ k ∈ r.map key, k ∉ a.map key) :
    ∀ k ∈ (coalescePair key R A r a).1.map key,
      k ∉ (coalescePair key R A r a).2.map key := by
  intro k h1 h2
  rw [mem_coalescePair_fst] at h1
  rw [mem_coalescePair_snd] at h2
  rcases h1 with ⟨hR, hna⟩ | ⟨hr, hnA⟩
  · rcases h2 with ⟨hA, _⟩ | ⟨ha, _⟩
    · exact hRA k hR hA
    · exact hna ha
  · rcases h2 with ⟨hA, _⟩ | ⟨ha, _⟩
    · exact hnA hA
    · exact hra k hr ha

theorem mergeAll_from_disjoint (key : τ → κ)
    (evts : List (List τ × List τ)) :
    ∀ p : List τ × List τ,
      (∀ k ∈ p.1.map key, k ∉ p.2.map key) →
      (∀ e ∈ evts, ∀ k ∈ e.1.map key, k ∉ e.2.map key) →
      ∀ k ∈ (evts.foldl (fun p e => coalescePair key p.1 p.2 e.1 e.2) p).1.map key,
        k ∉ (evts.foldl (fun p e => coalescePair key p.1 p.2 e.1 e.2) p).2.map key := by
  induction evts with
  | nil => intro p hp _ k hk; exact hp k hk
  | cons e es ih =>
    intro p hp hs
    simp only [List.foldl_cons]
    exact ih (coalescePair key p.1 p.2 e.1 e.2)
      (coalescePair_disjoint key p.1 p.2 e.1 e.2 hp
        (hs e (List.mem_cons_self e es)))
      (fun x hx => hs x (List.mem_cons_of_mem e hx))

/-! ### Claim theorems about the merge -/

/-- Claim C1: `merge` of pending `(R, A)` with incoming `(r, a)` yields the
revert slice `(R filtered of keys applied by a) ++ (r filtered of keys in A)`
and the apply slice `(A filtered of keys reverted by r) ++ (a filtered of
keys in R)`.  Filtering keeps each surviving group in source order, pending
elements before incoming ones, and removes no within-sequence duplicates. -/
theorem coalesce_merge_spec (key : τ → κ) (R A r a : List τ) :
    coalescePair key R A r a =
      (R.filter (fun ts => decide (key ts ∉ a.map key)) ++
         r.filter (fun ts => decide (key ts ∉ A.map key)),
       A.filter (fun ts => decide (key ts ∉ r.map key)) ++
         a.filter (fun ts => decide (key ts ∉ R.map key))) :=
  coalescePair_eq key R A r a

/-- Claim C2, counterexample: with empty pending state, an incoming event
whose revert and apply both hold the tipset with key `0` makes `merge`
return that key in both output slices, so the cancellation invariant fails
for unconstrained inputs. -/
theorem merge_shared_key_both_sides :
    (0 : Nat) ∈ (coalescePair id [] [] [0] [0]).1.map id ∧
      (0 : Nat) ∈ (coalescePair id [] [] [0] [0]).2.map id := by
  decide

/-- Claim C2, amended: if every merged event's revert and apply sequences are
mutually key-disjoint, then the pending pair obtained by merging any sequence
of such events into the initially empty pending state never holds a key in
both its revert and its apply slice. -/
theorem merge_disjoint_invariant (key : τ → κ)
    (evts : List (List τ × List τ))
    (h : ∀ e ∈ evts, ∀ k ∈ e.1.map key, k ∉ e.2.map key) :
    ∀ k ∈ (mergeAll key evts).1.map key, k ∉ (mergeAll key evts).2.map key := by
  unfold mergeAll
  exact mergeAll_from_disjoint key evts ([], []) (by simp) h

theorem merge_disjoint_invariant_wit :
    (∀ e ∈ [([1], [2]), ([2], [3])], ∀ k ∈ e.1.map (id : Nat → Nat),
        k ∉ e.2.map id) ∧
      ∀ k ∈ (mergeAll id [([1], [2]), ([2], [3])]).1.map id,
        k ∉ (mergeAll id [([1], [2]), ([2], [3])]).2.map id :=
  ⟨by decide, merge_disjoint_invariant id [([1], [2]), ([2], [3])] (by decide)⟩

/-- Claim C9: if the pending pair is key-disjoint and the incoming pair is
key-disjoint, the merged pair is key-disjoint. -/
theorem coalesce_preserves_disjoint (key : τ → κ) (R A r a : List τ)
    (hRA : ∀ k ∈ R.map key, k ∉ A.map key)
    (hra : ∀ k ∈ r.map key, k ∉ a.map key) :
    ∀ k ∈ (coalescePair key R A r a).1.map key,
      k ∉ (coalescePair key R A r a).2.map key :=
  coalescePair_disjoint key R A r a hRA hra

theorem coalesce_preserves_disjoint_wit :
    (∀ k ∈ ([3] : List Nat).map id, k ∉ ([4] : List Nat).map id) ∧
      (∀ k ∈ ([4] : List Nat).map id, k ∉ ([5] : List Nat).map id) ∧
      ∀ k ∈ (coalescePair id [3] [4] [4] [5]).1.map id,
        k ∉ (coalescePair id [3] [4] [4] [5]).2.map id :=
  ⟨by decide, by decide,
    coalesce_preserves_disjoint id [3] [4] [4] [5] (by decide) (by decide)⟩

/-! ### Lemmas about the background loop -/

theorem getD_ne_nil_isSome {o : Option (List τ)} (h : o.getD [] ≠ []) :
    o.isSome = true := by
  cases o with
  | none => simp at h
  | some l => rfl

/-- While the armed deadline `D` lies strictly in the future of every input,
a trace of submissions is fully merged into the pending pair and the timer
fires exactly once, at `D`, dispatching the merged pair. -/
theorem background_burst (key : τ → κ) (notify : List τ → List τ → Option ε)
    (delay D : Nat) :
    ∀ (rest : List (Nat × CAction τ)) (p : List τ × List τ),
      (∀ x ∈ rest, x.2.isSubmit = true ∧ x.1 < D) →
      background key notify delay (some D) ⟨some p.1, some p.2⟩ rest =
        [⟨D,
          (rest.foldl (fun p x => coalescePair key p.1 p.2 x.2.pair.1 x.2.pair.2) p).1,
          (rest.foldl (fun p x => coalescePair key p.1 p.2 x.2.pair.1 x.2.pair.2) p).2,
          notify
            (rest.foldl (fun p x => coalescePair key p.1 p.2 x.2.pair.1 x.2.pair.2) p).1
            (rest.foldl (fun p x => coalescePair key p.1 p.2 x.2.pair.1 x.2.pair.2) p).2⟩] := by
  intro rest
  induction rest with
  | nil =>
    intro p _
    simp [background, dispatch]
  | cons x xs ih =>
    intro p h
    obtain ⟨t, act⟩ := x
    have hx := h (t, act) (List.mem_cons_self _ _)
    cases act with
    | close => simp [CAction.isSubmit] at hx
    | submit r a =>
      have hnot : ¬ D ≤ t := Nat.not_le.mpr hx.2
      have hrec := ih (coalescePair key p.1 p.2 r a)
        (fun y hy => h y (List.mem_cons_of_mem _ hy))
      simp only [background, fireIfDue, hnot, if_false, List.foldl_cons]
      simpa [coalesce, CAction.pair] using hrec

/-- With a timer armed for deadline `D`, as long as only submissions arrive
the first dispatch of the trace happens exactly at `D`. -/
theorem background_head_time (key : τ → κ) (notify : List τ → List τ → Option ε)
    (delay D : Nat) :
    ∀ (rest : List (Nat × CAction τ)) (c : HeadChangeCoalescer τ),
      (∀ x ∈ rest, x.2.isSubmit = true) →
      ((background key notify delay (some D) c rest).head?).map
          DispatchRec.time = some D := by
  intro rest
  induction rest with
  | nil =>
    intro c _
    simp [background, dispatch]
  | cons x xs ih =>
    intro c h
    obtain ⟨t, act⟩ := x
    have hx := h (t, act) (List.mem_cons_self _ _)
    cases act with
    | close => simp [CAction.isSubmit] at hx
    | submit r a =>
      by_cases hd : D ≤ t
      · simp [background, fireIfDue, hd, dispatch]
      · simp only [background, fireIfDue, hd, if_false, List.nil_append]
        exact ih _ (fun y hy => h y (List.mem_cons_of_mem _ hy))

/-- The dispatch trace, stripped of the consumer callback's error values,
does not depend on the consumer callback at all: the loop ignores the
callback's result when deciding what to do next. -/
theorem background_err_indep (key : τ → κ)
    (n₁ : List τ → List τ → Option ε₁) (n₂ : List τ → List τ → Option ε₂)
    (delay : Nat) :
    ∀ (inputs : List (Nat × CAction τ)) (timerC : Option Nat)
      (c : HeadChangeCoalescer τ),
      (background key n₁ delay timerC c inputs).map
          (fun d => (d.time, d.revert, d.apply)) =
        (background key n₂ delay timerC c inputs).map
          (fun d => (d.time, d.revert, d.apply)) := by
  intro inputs
  induction inputs with
  | nil =>
    intro timerC c
    cases timerC <;> simp [background, dispatch]
  | cons x rest ih =>
    intro timerC c
    obtain ⟨t, act⟩ := x
    cases act with
    | submit r a =>
      cases timerC with
      | none =>
        simp only [background, fireIfDue, List.nil_append]
        exact ih _ _
      | some d =>
        by_cases hd : d ≤ t
        · simp only [background, fireIfDue, hd, if_true, dispatch,
            List.cons_append, List.nil_append, List.map_cons]
          exact congrArg _ (ih _ _)
        · simp only [background, fireIfDue, hd, if_false, List.nil_append]
          exact ih _ _
    | close =>
      cases timerC with
      | none =>
        simp only [background, fireIfDue, dispatch]
        split <;> simp
      | some d =>
        by_cases hd : d ≤ t <;>
          simp only [background, fireIfDue, hd, if_true, if_false, dispatch] <;>
          split <;> simp

/-! ### Claim theorems about the background loop -/

/-- Claim C3: if the pending state holds at least one tipset when the close
signal reaches the loop, the consumer callback is invoked exactly once more,
with exactly that pending revert/apply pair, and no dispatch follows: the
whole remaining trace is that single record. -/
theorem close_flushes_pending (key : τ → κ)
    (notify : List τ → List τ → Option ε) (delay : Nat) (timerC : Option Nat)
    (c : HeadChangeCoalescer τ) (t : Nat) (rest : List (Nat × CAction τ))
    (h : c.revert.getD [] ≠ [] ∨ c.apply.getD [] ≠ []) :
    (background key notify delay timerC c ((t, CAction.close) :: rest)).map
        (fun d => (d.revert, d.apply)) =
      [(c.revert.getD [], c.apply.getD [])] := by
  have hsome : (c.revert.isSome || c.apply.isSome) = true := by
    rcases h with h | h
    · simp [getD_ne_nil_isSome h]
    · simp [getD_ne_nil_isSome h]
  cases timerC with
  | none =>
    simp [background, fireIfDue, hsome, dispatch]
  | some d =>
    by_cases hd : d ≤ t
    · simp [background, fireIfDue, hd, dispatch]
    · simp [background, fireIfDue, hd, hsome, dispatch]

theorem close_flushes_pending_wit :
    ((some [5] : Option (List Nat)).getD [] ≠ [] ∨
        (none : Option (List Nat)).getD [] ≠ []) ∧
      (background (id : Nat → Nat) notifyOk 7 none ⟨some [5], none⟩
          [(0, CAction.close), (1, CAction.submit [6] [])]).map
          (fun d => (d.revert, d.apply)) =
        [((some [5] : Option (List Nat)).getD [],
          (none : Option (List Nat)).getD [])] :=
  ⟨by decide,
    close_flushes_pending id notifyOk 7 none ⟨some [5], none⟩ 0
      [(1, CAction.submit [6] [])] (by decide)⟩

/-- Claim C4, counterexample: an apply of tipset 1 followed by its revert
leaves a pending state holding no tipsets at all (two empty, non-nil
slices), yet closing then still invokes the consumer callback once, with two
empty sequences — the code tests the slices for nil-ness, not emptiness. -/
theorem close_dispatches_on_empty_pending :
    background (id : Nat → Nat) notifyOk 10 none ⟨none, none⟩
        [(0, CAction.submit [] [1]), (1, CAction.submit [1] []),
         (2, CAction.close)] =
      [⟨2, [], [], none⟩] ∧
    coalesce id (coalesce id ⟨none, none⟩ [] [1]) [1] [] =
      ⟨some [], some []⟩ := by
  decide

/-- Claim C4, amended: if the pending slices are nil — no event has been
merged since the last dispatch, so no timer is armed either — when the close
signal reaches the loop, the loop terminates with no further dispatch. -/
theorem close_no_dispatch_when_nil (key : τ → κ)
    (notify : List τ → List τ → Option ε) (delay : Nat) (t : Nat)
    (rest : List (Nat × CAction τ)) :
    background key notify delay none ⟨none, none⟩
        ((t, CAction.close) :: rest) = [] := by
  simp [background, fireIfDue]

/-- Claim C5: once the coalescer is closed, `HeadChange` returns the closed
error (and performs no side effect — it is a pure rejection), and the loop's
dispatch trace is unchanged by any input arriving after the close signal, so
the consumer callback never observes tipsets of a post-close submission. -/
theorem post_close_rejected (key : τ → κ)
    (notify : List τ → List τ → Option ε) (delay : Nat) (timerC : Option Nat)
    (c : HeadChangeCoalescer τ) (t : Nat) :
    (∀ revert apply : List τ,
        HeadChange true revert apply = Except.error CoalescerError.closed) ∧
      ∀ rest : List (Nat × CAction τ),
        background key notify delay timerC c ((t, CAction.close) :: rest) =
          background key notify delay timerC c [(t, CAction.close)] := by
  refine ⟨fun _ _ => rfl, fun rest => ?_⟩
  simp only [background]

/-- Claim C6: the dispatcher clears the pending state to nil whatever the
consumer callback returns, records the callback's error in the trace (the
log), and the loop's subsequent behaviour — every dispatch instant and every
dispatched pair — is identical for any two callbacks, so a callback error is
never retried, never halts the loop, and never reaches a producer. -/
theorem dispatch_swallows_error (key : τ → κ)
    (n₁ : List τ → List τ → Option ε₁) (n₂ : List τ → List τ → Option ε₂)
    (delay time : Nat) (c : HeadChangeCoalescer τ)
    (inputs : List (Nat × CAction τ)) (timerC : Option Nat) :
    (dispatch n₁ time c).1 = ⟨none, none⟩ ∧
      (dispatch n₁ time c).2.err =
        n₁ (c.revert.getD []) (c.apply.getD []) ∧
      (background key n₁ delay timerC c inputs).map
          (fun d => (d.time, d.revert, d.apply)) =
        (background key n₂ delay timerC c inputs).map
          (fun d => (d.time, d.revert, d.apply)) :=
  ⟨rfl, rfl, background_err_indep key n₁ n₂ delay inputs timerC c⟩

/-- Claim C7, counterexample: with delay 3, submissions at instants 0, 2 and
4 are consecutively spaced 2 < 3 apart, yet the run produces two dispatches,
not one: the quiescence timer is not reset by later submissions, so a burst
longer than the delay is split. -/
theorem burst_two_dispatches :
    ((2 : Nat) - 0 < 3 ∧ (4 : Nat) - 2 < 3) ∧
      (background (id : Nat → Nat) notifyOk 3 none ⟨none, none⟩
          [(0, CAction.submit [] [10]), (2, CAction.submit [] [11]),
           (4, CAction.submit [] [12])]).length = 2 := by
  decide

/-- Claim C7, amended: for a burst whose every later submission arrives
strictly less than `delay` after the first one, exactly one dispatch occurs,
at `t₀ + delay`, and it carries the fully merged net effect of the whole
burst. -/
theorem burst_within_window_single_dispatch (key : τ → κ)
    (notify : List τ → List τ → Option ε) (delay : Nat) (t₀ : Nat)
    (r₀ a₀ : List τ) (rest : List (Nat × CAction τ))
    (h : ∀ x ∈ rest, x.2.isSubmit = true ∧ x.1 < t₀ + delay) :
    background key notify delay none ⟨none, none⟩
        ((t₀, CAction.submit r₀ a₀) :: rest) =
      [⟨t₀ + delay,
        (mergeAll key ((r₀, a₀) :: rest.map (fun x => x.2.pair))).1,
        (mergeAll key ((r₀, a₀) :: rest.map (fun x => x.2.pair))).2,
        notify (mergeAll key ((r₀, a₀) :: rest.map (fun x => x.2.pair))).1
          (mergeAll key ((r₀, a₀) :: rest.map (fun x => x.2.pair))).2⟩] := by
  have hb := background_burst key notify delay (t₀ + delay) rest
    (coalescePair key [] [] r₀ a₀) h
  have hm : mergeAll key ((r₀, a₀) :: rest.map (fun x => x.2.pair)) =
      rest.foldl (fun p x => coalescePair key p.1 p.2 x.2.pair.1 x.2.pair.2)
        (coalescePair key [] [] r₀ a₀) := by
    simp [mergeAll, List.foldl_map]
  simp only [background, fireIfDue, List.nil_append, hm]
  simpa [coalesce] using hb

theorem burst_within_window_single_dispatch_wit :
    (∀ x ∈ [((2 : Nat), CAction.submit [1] ([] : List Nat))],
        x.2.isSubmit = true ∧ x.1 < 0 + 5) ∧
      background (id : Nat → Nat) notifyOk 5 none ⟨none, none⟩
          [(0, CAction.submit [] [1]), (2, CAction.submit [1] [])] =
        [⟨0 + 5,
          (mergeAll id (([], [1]) :: [((2 : Nat), CAction.submit [1] ([] : List Nat))].map (fun x => x.2.pair))).1,
          (mergeAll id (([], [1]) :: [((2 : Nat), CAction.submit [1] ([] : List Nat))].map (fun x => x.2.pair))).2,
          notifyOk
            (mergeAll id (([], [1]) :: [((2 : Nat), CAction.submit [1] ([] : List Nat))].map (fun x => x.2.pair))).1
            (mergeAll id (([], [1]) :: [((2 : Nat), CAction.submit [1] ([] : List Nat))].map (fun x => x.2.pair))).2⟩] :=
  ⟨by decide,
    burst_within_window_single_dispatch id notifyOk 5 0 [] [1]
      [((2 : Nat), CAction.submit [1] ([] : List Nat))] (by decide)⟩

/-- Claim C8: a submission arriving while the quiescence timer is armed (its
deadline `d` still in the future) leaves the timer untouched — the loop
continues with the same deadline and only the pending state coalesced — and
consequently, for a run consisting of a first submission at `t₀` followed by
any further submissions, the first dispatch happens exactly at `t₀ + delay`,
i.e. within `delay` of the first submission of the burst. -/
theorem timer_not_rearmed (key : τ → κ)
    (notify : List τ → List τ → Option ε) (delay : Nat) (d t : Nat)
    (c : HeadChangeCoalescer τ) (r a : List τ)
    (rest : List (Nat × CAction τ)) (t₀ : Nat) (r₀ a₀ : List τ)
    (rest₂ : List (Nat × CAction τ))
    (h1 : t < d)
    (h2 : ∀ x ∈ rest₂, x.2.isSubmit = true) :
    background key notify delay (some d) c ((t, CAction.submit r a) :: rest) =
        background key notify delay (some d) (coalesce key c r a) rest ∧
      ((background key notify delay none ⟨none, none⟩
            ((t₀, CAction.submit r₀ a₀) :: rest₂)).head?).map
          DispatchRec.time = some (t₀ + delay) := by
  constructor
  · have hnot : ¬ d ≤ t := Nat.not_le.mpr h1
    simp [background, fireIfDue, hnot]
  · simp only [background, fireIfDue, List.nil_append]
    exact background_head_time key notify delay (t₀ + delay) rest₂
      (coalesce key ⟨none, none⟩ r₀ a₀) h2

theorem timer_not_rearmed_wit :
    ((1 : Nat) < 4 ∧
        ∀ x ∈ [((3 : Nat), CAction.submit ([] : List Nat) [9])],
          x.2.isSubmit = true) ∧
      (background (id : Nat → Nat) notifyOk 4 (some 4) ⟨some [8], none⟩
            [(1, CAction.submit [9] []), (2, CAction.close)] =
          background id notifyOk 4 (some 4)
            (coalesce id ⟨some [8], none⟩ [9] []) [(2, CAction.close)] ∧
        ((background (id : Nat → Nat) notifyOk 4 none ⟨none, none⟩
              [(0, CAction.submit [] [7]),
               ((3 : Nat), CAction.submit ([] : List Nat) [9])]).head?).map
            DispatchRec.time = some (0 + 4)) :=
  ⟨⟨by decide, by decide⟩,
    timer_not_rearmed id notifyOk 4 4 1 ⟨some [8], none⟩ [9] []
      [(2, CAction.close)] 0 [] [7]
      [((3 : Nat), CAction.submit ([] : List Nat) [9])]
      (by decide) (by decide)⟩

/-- Claim C10: `coalesce` always commits freshly made, hence non-nil, slices
(even when they are empty), so after a fully cancelling burst — apply tipset
1, then revert it within the window — the timer still fires and the consumer
callback is invoked once with two empty sequences. -/
theorem coalesce_nonnil_empty_dispatch :
    (∀ (key : τ → κ) (c : HeadChangeCoalescer τ) (r a : List τ),
        (coalesce key c r a).revert.isSome = true ∧
          (coalesce key c r a).apply.isSome = true) ∧
      background (id : Nat → Nat) notifyOk 10 none ⟨none, none⟩
          [(0, CAction.submit [] [1]), (3, CAction.submit [1] [])] =
        [⟨10, [], [], none⟩] := by
  exact ⟨fun key c r a => ⟨rfl, rfl⟩, by decide⟩

end Store
